import Mathlib

/-!
# Verification of the dg-cal synchronization and feed-generation engine

Shallow embedding of the Go sources of `resterle/dg-cal`:
* `model` (tournament data model),
* `gto` (listing / detail / schedule-feed extractors, `ics.go` and `gto.go`),
* `db` (SQLite-backed repository, modelled as pure state passing over lists),
* `service` (the sync engine `TournamentService.Sync` and the feed generator
  `IcsService.CreateIcs`).

Instants (`time.Time` values that are only compared or copied) are modelled as
integers (seconds); `t.Before(u)` is `t < u`.  Civil timestamps that the code
takes apart into calendar fields are modelled by the `DateTime` structure of
wall-clock fields.  Go maps are modelled as association lists with map-style
lookup and update.  Fallible Go functions return `Except`; Go code that can
panic (slice indexing) returns `GoResult`, which has a dedicated panic
outcome.
-/

namespace DgCal

/-- Map-style lookup in an association list (Go `m[k]` read: first binding wins). -/
def alookup {α : Type} (l : List (Int × α)) (k : Int) : Option α :=
  match l with
  | [] => none
  | (k', v) :: rest => if k' = k then some v else alookup rest k

/-- Map-style update (Go `m[k] = v`): replace the binding if present, else append. -/
def aupdate {α : Type} (l : List (Int × α)) (k : Int) (v : α) : List (Int × α) :=
  match l with
  | [] => [(k, v)]
  | (k', v') :: rest => if k' = k then (k, v) :: rest else (k', v') :: aupdate rest k v

theorem alookup_aupdate_self {α : Type} (l : List (Int × α)) (k : Int) (v : α) :
    alookup (aupdate l k v) k = some v := by
  induction l with
  | nil => simp [alookup, aupdate]
  | cons p rest ih =>
    obtain ⟨k', v'⟩ := p
    by_cases h : k' = k <;> simp [alookup, aupdate, h, ih]

theorem alookup_aupdate_ne {α : Type} (l : List (Int × α)) (k k' : Int) (v : α)
    (h : k ≠ k') : alookup (aupdate l k v) k' = alookup l k' := by
  induction l with
  | nil => simp [alookup, aupdate, h]
  | cons p rest ih =>
    obtain ⟨k0, v0⟩ := p
    by_cases h0 : k0 = k
    · subst h0
      simp [alookup, aupdate, h]
    · simp only [aupdate, if_neg h0, alookup]
      by_cases h1 : k0 = k' <;> simp [h1, ih]

theorem alookup_mem {α : Type} {l : List (Int × α)} {k : Int} {v : α}
    (h : alookup l k = some v) : (k, v) ∈ l := by
  induction l with
  | nil => simp [alookup] at h
  | cons p rest ih =>
    obtain ⟨k', v'⟩ := p
    by_cases hk : k' = k
    · subst hk
      simp [alookup] at h
      simp [h]
    · simp [alookup, hk] at h
      exact List.mem_cons_of_mem _ (ih h)

theorem mem_alookup {α : Type} {l : List (Int × α)} {k : Int} {v : α}
    (hnd : (l.map Prod.fst).Nodup) (h : (k, v) ∈ l) : alookup l k = some v := by
  induction l with
  | nil => simp at h
  | cons p rest ih =>
    obtain ⟨k', v'⟩ := p
    simp only [List.map_cons, List.nodup_cons] at hnd
    rcases List.mem_cons.mp h with h | h
    · cases h
      simp [alookup]
    · have hk : k' ≠ k := by
        intro hcontra
        subst hcontra
        exact hnd.1 (List.mem_map.mpr ⟨(k', v), h, rfl⟩)
      simp [alookup, hk]
      exact ih hnd.2 h

/-! ## Civil calendar model

The schedule-feed extractor (`gto/ics.go`, `parseTournament`) takes a parsed
`time.Time` apart into its calendar fields and rebuilds a midnight timestamp.
We model such wall-clock timestamps by their civil fields. -/

/-- A wall-clock timestamp: the civil fields Go's `Year()/Month()/Day()/...`
accessors return, in the event's fixed timezone. -/
structure DateTime where
  year : Int
  month : Nat
  day : Nat
  hour : Nat
  minute : Nat
deriving DecidableEq, Repr

/-- Gregorian leap-year test (as in Go's `time` package). -/
def isLeapYear (y : Int) : Bool :=
  (y % 4 == 0 && y % 100 != 0) || y % 400 == 0

/-- Length of month `m` of year `y` (Gregorian calendar, as in Go's `time` package). -/
def daysInMonth (y : Int) (m : Nat) : Nat :=
  if m = 2 then (if isLeapYear y then 29 else 28)
  else if m = 4 ∨ m = 6 ∨ m = 9 ∨ m = 11 then 30
  else 31

/-- `(y, m, d)` is a valid Gregorian civil date. -/
def ValidDate (y : Int) (m d : Nat) : Prop :=
  1 ≤ m ∧ m ≤ 12 ∧ 1 ≤ d ∧ d ≤ daysInMonth y m

instance (y : Int) (m d : Nat) : Decidable (ValidDate y m d) := by
  unfold ValidDate; infer_instance

/-- Models Go `time.Date(y, m, d-1, 0, 0, 0, 0, loc)` (as produced by
`AddDate(0, 0, -1)` on a midnight timestamp) for a valid civil date `(y, m, d)`:
Go normalizes day `0` to the last day of the previous month. -/
def goPrevDay (y : Int) (m d : Nat) : Int × Nat × Nat :=
  if 2 ≤ d then (y, m, d - 1)
  else if 2 ≤ m then (y, m - 1, daysInMonth y (m - 1))
  else (y - 1, 12, 31)

/-- The calendar day immediately after `(y, m, d)` (specification-side successor,
written independently of the code's day-subtraction). -/
def nextCivilDay (y : Int) (m d : Nat) : Int × Nat × Nat :=
  if d < daysInMonth y m then (y, m, d + 1)
  else if m < 12 then (y, m + 1, 1)
  else (y + 1, 1, 1)

/-- Embeds the end-date normalization of `gto/ics.go` `parseTournament`:
`time.Date(dtEnd.Year(), dtEnd.Month(), dtEnd.Day(), 0, 0, 0, 0, dtEnd.Location()).AddDate(0, 0, -1)` —
truncate the raw exclusive end to midnight of its calendar day, then subtract
one calendar day. -/
def normalizeEndDate (dt : DateTime) : DateTime :=
  let (y, m, d) := goPrevDay dt.year dt.month dt.day
  ⟨y, m, d, 0, 0⟩

/-! ## Go string helpers (`strings` / `strconv`) -/

/-- Character is ASCII whitespace (the cases `strings.TrimSpace` strips that can
occur in the scraped text). -/
def isSpaceChar (c : Char) : Bool :=
  c = ' ' ∨ c = '\t' ∨ c = '\n' ∨ c = '\r'

/-- Go `strings.TrimSpace` on a character list. -/
def trimSpace (s : List Char) : List Char :=
  ((s.dropWhile isSpaceChar).reverse.dropWhile isSpaceChar).reverse

/-- Go `strings.Split(s, sep)` for a one-character separator: all parts, separator
dropped, empty parts kept. -/
def goSplit (sep : Char) : List Char → List (List Char)
  | [] => [[]]
  | c :: rest =>
    if c = sep then [] :: goSplit sep rest
    else
      match goSplit sep rest with
      | [] => [[c]]
      | p :: ps => (c :: p) :: ps

theorem goSplit_ne_nil (sep : Char) (s : List Char) : goSplit sep s ≠ [] := by
  cases s with
  | nil => simp [goSplit]
  | cons c rest =>
    simp only [goSplit]
    by_cases h : c = sep
    · simp [h]
    · simp only [if_neg h]
      cases goSplit sep rest <;> simp

/-- The number of parts `strings.Split` produces is the separator count plus one. -/
theorem goSplit_length (sep : Char) (s : List Char) :
    (goSplit sep s).length = s.count sep + 1 := by
  induction s with
  | nil => simp [goSplit]
  | cons c rest ih =>
    simp only [goSplit]
    by_cases h : c = sep
    · subst h
      simp [List.count_cons, ih]
    · simp only [if_neg h]
      have hne := goSplit_ne_nil sep rest
      cases hcase : goSplit sep rest with
      | nil => exact absurd hcase hne
      | cons p ps =>
        have := ih
        rw [hcase] at this
        simp only [List.length_cons] at this ⊢
        rw [List.count_cons]
        simp [h, Ne.symm h] at *
        omega

/-- First occurrence split for `strings.SplitAfterN`: the prefix up to and
including the first `sep`, and the remainder. -/
def breakAfterChar (sep : Char) : List Char → Option (List Char × List Char)
  | [] => none
  | c :: rest =>
    if c = sep then some ([c], rest)
    else
      match breakAfterChar sep rest with
      | none => none
      | some (pre, post) => some (c :: pre, post)

/-- Go `strings.SplitAfterN(s, sep, n)` for a one-character separator. -/
def splitAfterN (sep : Char) : Nat → List Char → List (List Char)
  | 0, _ => []
  | 1, s => [s]
  | n + 2, s =>
    match breakAfterChar sep s with
    | none => [s]
    | some (pre, post) => pre :: splitAfterN sep (n + 1) post

/-- Go `strings.CutSuffix(s, suffix)`: the string with the suffix removed, when
the suffix is present. -/
def cutSuffix (s suffix : List Char) : Option (List Char) :=
  if suffix.isSuffixOf s then some (s.take (s.length - suffix.length)) else none

/-- Digits of a decimal numeral; `none` unless the list is nonempty and all digits. -/
def digitsToNat : List Char → Option Nat
  | [] => none
  | l => l.foldl (fun acc c =>
      match acc with
      | none => none
      | some n => if c.isDigit then some (n * 10 + (c.toNat - '0'.toNat)) else none)
      (some 0)

/-- Go `strconv.Atoi`: optional sign, then a nonempty run of digits consuming the
whole string (overflow, which cannot occur for the ids involved, is not modelled). -/
def atoi (s : List Char) : Option Int :=
  match s with
  | '-' :: rest => (digitsToNat rest).map (fun n => -(n : Int))
  | '+' :: rest => (digitsToNat rest).map (fun n => (n : Int))
  | _ => (digitsToNat s).map (fun n => (n : Int))

/-! ## Data model (`model/model.go`) -/

def TOURNAMENT_STATUS_PROVISIONAL : String := "PROVISIONAL"

def TOURNAMENT_STATUS_ANNOUNCED : String := "ANNOUNCED"

def TOURNAMENT_STATUS_REGISTRATION : String := "REGISTRATION"

def TOURNAMENT_STATUS_IN_PROGRESS : String := "IN PROGESS"

def TOURNAMENT_STATUS_DONE : String := "DONE"

def TOURNAMENT_STATUS_CANCELLED : String := "CANCELLED"

def EVENT_TYPE_TURNAMENT : Nat := 0

def EVENT_TYPE_REGISTRATION : Nat := 1

/-- `model.Registration` (a stored registration phase of a tournament). -/
structure Registration where
  title : String
  startDate : DateTime
  endDate : DateTime
deriving DecidableEq, Repr

/-- `model.Tournament`.  `updatedAt` is the remote last-change instant (compared
with `Before`), modelled as an integer. -/
structure Tournament where
  id : Int
  status : String
  updatedAt : Int
  startDate : DateTime
  endDate : DateTime
  title : String
  localtion : String
  geoLocation : String
  series : List String
  pdgaTier : String
  pdgaId : String
  dRating : Bool
  registrations : List Registration
deriving DecidableEq, Repr

/-- Go zero `time.Time` (January 1, year 1, midnight), the value date fields of a
freshly allocated `model.Tournament` hold. -/
def goZeroTime : DateTime := ⟨1, 1, 1, 0, 0⟩

/-- The Go zero value `model.Tournament{}` (every field at its zero value). -/
def zeroTournament : Tournament :=
  ⟨0, "", 0, goZeroTime, goZeroTime, "", "", "", [], "", "", false, []⟩

/-- `model.RegistrationPhase` (freshly parsed from the detail page). -/
structure RegistrationPhase where
  name : String
  startDate : DateTime
  endDate : DateTime
deriving DecidableEq, Repr

/-- `model.EventDetails` (the detail-page extraction result). -/
structure EventDetails where
  id : Int
  title : String
  startDate : DateTime
  endDate : DateTime
  location : String
  geoLocation : String
  series : List String
  pdgaTier : String
  pdgaId : String
  dRatingConsideration : Bool
  registrationPhases : List RegistrationPhase
deriving DecidableEq, Repr

/-- `model.SubscriptionConfig`: a subscriber filter. -/
structure SubscriptionConfig where
  tournaments : List Int
  series : List String
deriving DecidableEq, Repr

/-- `model.Calendar` (the fields feed generation reads). -/
structure Calendar where
  id : String
  title : String
  config : SubscriptionConfig
deriving DecidableEq, Repr

/-! ## Date-range parsing (`gto/gto.go`) -/

/-- The two layout strings passed to `parseDateRange`:
`dateLayout = "02.01.2006"` and `dateTimeLayout = "02.01.2006 15:04"`. -/
inductive DateLayout where
  | dateOnly
  | dateTimeMin
deriving DecidableEq, Repr

/-- Decimal value of two digit characters; `none` if either is not a digit. -/
def twoDigits : List Char → Option (Nat × List Char)
  | c1 :: c2 :: rest =>
    if c1.isDigit ∧ c2.isDigit then
      some ((c1.toNat - '0'.toNat) * 10 + (c2.toNat - '0'.toNat), rest)
    else none
  | _ => none

/-- Go `time.ParseInLocation("02.01.2006", s, loc)`: exactly `DD.MM.YYYY` with
zero-padded fields, month and day validated against the Gregorian calendar
(Go rejects out-of-range components). -/
def parseDateOnly (s : List Char) : Option DateTime :=
  match twoDigits s with
  | none => none
  | some (d, rest1) =>
    match rest1 with
    | '.' :: rest2 =>
      match twoDigits rest2 with
      | none => none
      | some (m, rest3) =>
        match rest3 with
        | '.' :: y1 :: y2 :: y3 :: y4 :: rest4 =>
          if y1.isDigit ∧ y2.isDigit ∧ y3.isDigit ∧ y4.isDigit ∧ rest4 = [] then
            let y : Int :=
              ((y1.toNat - '0'.toNat) * 1000 + (y2.toNat - '0'.toNat) * 100 +
                (y3.toNat - '0'.toNat) * 10 + (y4.toNat - '0'.toNat) : Nat)
            if ValidDate y m d then some ⟨y, m, d, 0, 0⟩ else none
          else none
        | _ => none
    | _ => none

/-- Go `time.ParseInLocation("02.01.2006 15:04", s, loc)`. -/
def parseDateTimeMin (s : List Char) : Option DateTime :=
  match s with
  | d1 :: d2 :: '.' :: m1 :: m2 :: '.' :: y1 :: y2 :: y3 :: y4 :: ' ' :: h1 :: h2 :: ':' :: n1 :: n2 :: [] =>
    match parseDateOnly [d1, d2, '.', m1, m2, '.', y1, y2, y3, y4] with
    | none => none
    | some dt =>
      if h1.isDigit ∧ h2.isDigit ∧ n1.isDigit ∧ n2.isDigit then
        let h := (h1.toNat - '0'.toNat) * 10 + (h2.toNat - '0'.toNat)
        let n := (n1.toNat - '0'.toNat) * 10 + (n2.toNat - '0'.toNat)
        if h < 24 ∧ n < 60 then some ⟨dt.year, dt.month, dt.day, h, n⟩ else none
      else none
  | _ => none

/-- Dispatch on the layout string (`dateLayout` / `dateTimeLayout`). -/
def parseInLocation (layout : DateLayout) (s : List Char) : Option DateTime :=
  match layout with
  | .dateOnly => parseDateOnly s
  | .dateTimeMin => parseDateTimeMin s

/-- Embeds `gto/gto.go` `parseDateRange`: split the text on every literal
hyphen (`strings.Split`), parse the first part in the given layout, and parse a
second part as the end exactly when the split yielded two parts. -/
def parseDateRange (layout : DateLayout) (dateText : String) :
    Except String (Option DateTime × Option DateTime) :=
  match goSplit '-' dateText.toList with
  | [] => .ok (none, none)
  | p0 :: rest =>
    match parseInLocation layout (trimSpace p0) with
    | none => .error "failed to parse start date"
    | some startDate =>
      match rest with
      | [p1] =>
        match parseInLocation layout (trimSpace p1) with
        | none => .error "failed to parse end date"
        | some endDate => .ok (some startDate, some endDate)
      | _ => .ok (some startDate, none)

/-- Modelled from the spec's words for claim C5 ("split the text on a literal
hyphen separator into at most two parts ... if a second part exists, parse it
with the same format and return it as the end"): the same parser but with
`strings.SplitN(s, "-", 2)` semantics, to be compared with `parseDateRange`. -/
def parseDateRangeClaim (layout : DateLayout) (dateText : String) :
    Except String (Option DateTime × Option DateTime) :=
  let parts :=
    match dateText.toList.splitOnP (· = '-') with
    | [] => [dateText.toList]
    | p0 :: [] => [p0]
    | p0 :: p1 :: rest => [p0, List.intercalate ['-'] (p1 :: rest)]
  match parts with
  | [] => .ok (none, none)
  | p0 :: rest =>
    match parseInLocation layout (trimSpace p0) with
    | none => .error "failed to parse start date"
    | some startDate =>
      match rest with
      | p1 :: _ =>
        match parseInLocation layout (trimSpace p1) with
        | none => .error "failed to parse end date"
        | some endDate => .ok (some startDate, some endDate)
      | _ => .ok (some startDate, none)

/-- Embeds the `"Turnierbetrieb"` case of `gto/gto.go` `parseEventPage`: the
tournament date-range cell is parsed with the date-only layout; on failure the
dates stay unset, and a missing end defaults to the start. -/
def turnierbetriebDates (value : String) : Option (DateTime × DateTime) :=
  match parseDateRange .dateOnly value with
  | .error _ => none
  | .ok (none, _) => none
  | .ok (some s, none) => some (s, s)
  | .ok (some s, some e) => some (s, e)

/-! ## Schedule-feed extractor (`gto/ics.go`) -/

/-- Outcome of Go code that can return an error value or panic at runtime. -/
inductive GoResult (α : Type) where
  | ok : α → GoResult α
  | err : String → GoResult α
  | panics : String → GoResult α
deriving DecidableEq, Repr

/-- Go slice indexing `l[i]`: panics when the index is out of range. -/
def goIndex {α : Type} (l : List α) (i : Nat) : GoResult α :=
  match l.get? i with
  | some x => .ok x
  | none => .panics "runtime error: index out of range"

/-- A parsed `ics.VEvent` as consumed by the extractor: its UID and the
properties the code reads (`GetStartAt` / `GetEndAt` fail when absent). -/
structure VEvent where
  uid : String
  dtStart : Option DateTime
  dtEnd : Option DateTime
  summary : Option String
deriving DecidableEq, Repr

def icsUidSuffix : List Char := "@turniere.discgolf.de".toList

def registrationPrefix : List Char := "registration-".toList

/-- Embeds `gto/ics.go` `typeAndId`: cut the fixed domain suffix, split after at
most three hyphens, take the id from the second part (third for
`"registration-"` UIDs), and convert it with `strconv.Atoi`.  The slice
accesses `parts[1]` / `parts[2]` are unchecked in the source and panic when the
parts are missing. -/
def typeAndId (uid : String) : GoResult (Nat × Int) :=
  match cutSuffix uid.toList icsUidSuffix with
  | none => .err "Unknown uid fromat"
  | some s =>
    let parts := splitAfterN '-' 3 s
    match goIndex parts 1 with
    | .err m => .err m
    | .panics m => .panics m
    | .ok p1 =>
      match parts with
      | [] => .panics "runtime error: index out of range"
      | p0 :: _ =>
        if p0 = registrationPrefix then
          match goIndex parts 2 with
          | .err m => .err m
          | .panics m => .panics m
          | .ok p2 =>
            match atoi p2 with
            | none => .err "Id is not an int"
            | some tid => .ok (EVENT_TYPE_REGISTRATION, tid)
        else
          match atoi p1 with
          | none => .err "Id is not an int"
          | some tid => .ok (EVENT_TYPE_TURNAMENT, tid)

/-- Embeds `gto/ics.go` `parseTournament`: start date from `DTSTART`, end date
normalized from the feed's exclusive `DTEND` via `normalizeEndDate`, title from
the summary property (empty when absent). -/
def parseTournamentEvent (event : VEvent) (tournament : Tournament) :
    Except String Tournament :=
  match event.dtStart with
  | none => .error "property not found"
  | some dtStart =>
    match event.dtEnd with
    | none => .error "property not found"
    | some dtEnd =>
      .ok { tournament with
              startDate := dtStart
              endDate := normalizeEndDate dtEnd
              title := (event.summary).getD "" }

/-- Loop body accumulator of `gto/ics.go` `parseIcsEvents` over the feed's
events: group by tournament id, creating an empty record on first sight, skip
registration-kind entries, and parse tournament-kind entries into the record. -/
def parseIcsEventsAux (events : List VEvent) (acc : List (Int × Tournament)) :
    GoResult (List (Int × Tournament)) :=
  match events with
  | [] => .ok acc
  | event :: rest =>
    match typeAndId event.uid with
    | .err m => .err m
    | .panics m => .panics m
    | .ok (t, id) =>
      let cur := (alookup acc id).getD { zeroTournament with id := id }
      if t = EVENT_TYPE_REGISTRATION then
        parseIcsEventsAux rest (aupdate acc id cur)
      else
        match parseTournamentEvent event cur with
        | .error e => .err e
        | .ok cur' => parseIcsEventsAux rest (aupdate acc id cur')

/-- Embeds `gto/ics.go` `parseIcsEvents`. -/
def parseIcsEvents (events : List VEvent) : GoResult (List (Int × Tournament)) :=
  parseIcsEventsAux events []

/-- `gto/gto.go` `tournamentUpdate`: one listing-page row. -/
structure TournamentUpdate where
  updated : Int
  status : String
deriving DecidableEq, Repr

/-- Embeds the merge loop of `gto/ics.go` `GtoService.FetchTournaments`: iterate
over the listing map; take the schedule-feed record when present, otherwise
only keep ids whose listing status is cancelled or done (with a fresh record);
always overwrite `UpdatedAt` and `Status` from the listing. -/
def mergeStep (tournaments : List (Int × Tournament))
    (result : List (Int × Tournament)) (idu : Int × TournamentUpdate) :
    List (Int × Tournament) :=
  match alookup tournaments idu.1 with
  | some t =>
    aupdate result idu.1 { t with updatedAt := idu.2.updated, status := idu.2.status }
  | none =>
    if idu.2.status = TOURNAMENT_STATUS_CANCELLED ∨
        idu.2.status = TOURNAMENT_STATUS_DONE then
      aupdate result idu.1
        { { zeroTournament with id := idu.1, status := idu.2.status } with
            updatedAt := idu.2.updated, status := idu.2.status }
    else result

def fetchTournamentsMerge (updates : List (Int × TournamentUpdate))
    (tournaments : List (Int × Tournament)) : List (Int × Tournament) :=
  updates.foldl (mergeStep tournaments) []

/-! ## Repository (`db` package, first `Repo` in `src/unnamed/part_002`)

The SQLite tables are modelled as lists of rows; upserts mirror the
`ON CONFLICT` clauses, and the plain `INSERT` into `tournament_history` fails
exactly when its `UNIQUE(tournament_id, date)` constraint is violated.  `date`
is the full `time.Now()` timestamp (a `DATETIME`), passed in explicitly. -/

/-- A row of the `tournaments` table (its exact columns). -/
structure TournamentRow where
  id : Int
  title : String
  status : String
  location : String
  geoLocation : String
  updatedAt : Int
  startDate : DateTime
  endDate : DateTime
  series : List String
  pdgaTier : String
  pdgaId : String
  drating : Bool
deriving DecidableEq, Repr

/-- The columns `Repo.UpsertTournament` binds from a `model.Tournament`. -/
def toRow (t : Tournament) : TournamentRow :=
  ⟨t.id, t.title, t.status, t.localtion, t.geoLocation, t.updatedAt,
    t.startDate, t.endDate, t.series, t.pdgaTier, t.pdgaId, t.dRating⟩

/-- A row of the `registrations` table (`UNIQUE(id, title)`). -/
structure RegRow where
  id : Int
  title : String
  startDate : DateTime
  endDate : DateTime
deriving DecidableEq, Repr

/-- A row of the `tournament_history` table (`UNIQUE(tournament_id, date)`),
`snapshot` being the serialized tournament. -/
structure HistoryRow where
  tournamentId : Int
  date : Int
  updatedAt : Int
  snapshot : Tournament
deriving DecidableEq, Repr

/-- The database state behind `db.Repo`. -/
structure Db where
  tournaments : List TournamentRow
  registrations : List RegRow
  history : List HistoryRow
  calendars : List Calendar
deriving DecidableEq, Repr

/-- `INSERT ... ON CONFLICT(id) DO UPDATE` on `tournaments`. -/
def upsertTournamentRow (db : Db) (t : Tournament) : Db :=
  if db.tournaments.any (fun row => row.id == t.id) then
    { db with tournaments :=
        db.tournaments.map (fun row => if row.id == t.id then toRow t else row) }
  else
    { db with tournaments := db.tournaments ++ [toRow t] }

/-- Embeds `Repo.UpsertRegistration`: `INSERT ... ON CONFLICT(id, title) DO
UPDATE SET start_date, end_date, title` on `registrations`. -/
def upsertRegistration (tid : Int) (db : Db) (r : Registration) : Db :=
  if db.registrations.any (fun row => row.id == tid && row.title == r.title) then
    { db with registrations :=
        db.registrations.map (fun row =>
          if row.id == tid && row.title == r.title then
            ⟨tid, r.title, r.startDate, r.endDate⟩
          else row) }
  else
    { db with registrations := db.registrations ++ [⟨tid, r.title, r.startDate, r.endDate⟩] }

/-- Embeds `Repo.UpsertTournament`: upsert the tournament row, then upsert every
registration currently attached to the tournament value. -/
def upsertTournament (db : Db) (t : Tournament) : Db :=
  t.registrations.foldl (upsertRegistration t.id) (upsertTournamentRow db t)

/-- Embeds `Repo.CreateTurnamentHistory`: a plain `INSERT` of
`(tournament_id, time.Now(), tournament.UpdatedAt, snapshot)`; the insert fails
exactly when the `UNIQUE(tournament_id, date)` pair — id and *full insertion
timestamp* — already exists. -/
def createTurnamentHistory (now : Int) (db : Db) (t : Tournament) : Except String Db :=
  if db.history.any (fun h => h.tournamentId == t.id && h.date == now) then
    .error "UNIQUE constraint failed: tournament_history.tournament_id, tournament_history.date"
  else
    .ok { db with history := db.history ++ [⟨t.id, now, t.updatedAt, t⟩] }

/-- Embeds `Repo.GetCalendarUpdateCount` for one id: `SELECT tournament_id,
count(*) FROM tournament_history GROUP BY tournament_id`, with the Go map's
zero default for ids without rows. -/
def historyCount (db : Db) (tid : Int) : Nat :=
  (db.history.filter (fun h => h.tournamentId == tid)).length

/-- Embeds `Repo.GetCalendarById` (via `CalendarService.GetCalendar` with a
plain calendar id): the stored calendar with that id, if any. -/
def getCalendarById (db : Db) (calId : String) : Option Calendar :=
  db.calendars.find? (fun c => c.id == calId)

/-- The calendar-day number of an instant (seconds), for stating per-day
uniqueness of history snapshots. -/
def dayOf (t : Int) : Int := t.ediv 86400

/-! ## Sync engine (`service` package, `TournamentService.Sync`) -/

/-- The `TournamentService` state: the in-memory tournament map, the repository
state behind it, and the last-sync instant. -/
structure ServiceState where
  tournaments : List (Int × Tournament)
  db : Db
  lastSync : Option Int
deriving DecidableEq, Repr

/-- The merge of the detail-page fields onto a fetched tournament record
(`Sync`'s field assignments: detail fields take precedence; id, status and
`updatedAt` stay those of the fetched listing record). -/
def mergeDetails (fetched : Tournament) (d : EventDetails) : Tournament :=
  { fetched with
      title := d.title
      series := d.series
      pdgaTier := d.pdgaTier
      pdgaId := d.pdgaId
      dRating := d.dRatingConsideration
      localtion := d.location
      geoLocation := d.geoLocation
      startDate := d.startDate
      endDate := d.endDate }

/-- The freshly parsed registration phases as `model.Registration` values
(`model.Registration{Title: p.Name, StartDate: p.StartDate, EndDate: p.EndDate}`). -/
def phasesToRegs (d : EventDetails) : List Registration :=
  d.registrationPhases.map (fun p => ⟨p.name, p.startDate, p.endDate⟩)

/-- The in-memory record after the phase loop appended every parsed phase. -/
def withPhases (t : Tournament) (d : EventDetails) : Tournament :=
  { t with registrations := t.registrations ++ phasesToRegs d }

/-- The repository writes of one applied `Sync` iteration: upsert the
tournament (with the registrations it carried when fetched), then upsert each
freshly parsed phase. -/
def syncDb (db : Db) (t : Tournament) (d : EventDetails) : Db :=
  d.registrationPhases.foldl
    (fun db p => upsertRegistration t.id db ⟨p.name, p.startDate, p.endDate⟩)
    (upsertTournament db t)

/-- The commit of one applied `Sync` iteration: write the merged record and its
phases, append one history snapshot (propagating its error), and replace the
in-memory map entry with the final record. -/
def syncCommit (now : Int) (st : ServiceState) (fetched : Tournament)
    (d : EventDetails) : Except String ServiceState :=
  let t := mergeDetails fetched d
  (createTurnamentHistory now (syncDb st.db t d) (withPhases t d)).map
    (fun db3 =>
      { st with tournaments := aupdate st.tournaments t.id (withPhases t d), db := db3 })

/-- One iteration of the `Sync` loop over a fetched tournament: skip unless the
record is unseen or strictly newer (`storedTournament == nil ||
storedTournament.UpdatedAt.Before(fetchedTournament.UpdatedAt)`); otherwise
fetch details, merge the detail fields, store the tournament, upsert each
freshly parsed phase (appending it to the in-memory record), and append one
history snapshot.  A detail-fetch or history-insert error aborts the cycle. -/
def syncOne (details : Int → Except String EventDetails) (now : Int)
    (st : ServiceState) (fetched : Tournament) : Except String ServiceState :=
  if (match alookup st.tournaments fetched.id with
      | none => true
      | some stored => decide (stored.updatedAt < fetched.updatedAt)) then
    match details fetched.id with
    | .error e => .error e
    | .ok d => syncCommit now st fetched d
  else
    .ok st

/-- The `Sync` loop over all fetched tournaments (early return on error). -/
def syncAll (details : Int → Except String EventDetails) (now : Int)
    (st : ServiceState) : List Tournament → Except String ServiceState
  | [] => .ok st
  | f :: rest =>
    match syncOne details now st f with
    | .error e => .error e
    | .ok st' => syncAll details now st' rest

/-- Embeds `TournamentService.Sync` given the already-fetched remote map: run
the loop, then record the cycle completion time. -/
def Sync (details : Int → Except String EventDetails) (now : Int)
    (st : ServiceState) (fetchedList : List Tournament) : Except String ServiceState :=
  match syncAll details now st fetchedList with
  | .error e => .error e
  | .ok st' => .ok { st' with lastSync := some now }

/-! ## Feed generator (`service.IcsService.CreateIcs`) -/

/-- Embeds `TournamentService.GetTournamentsForSeries`: the in-memory
tournaments one of whose series is contained in the subscribed series list. -/
def getTournamentsForSeries (tmap : List (Int × Tournament)) (series : List String) :
    List (Int × Tournament) :=
  tmap.filter (fun p => p.2.series.any (fun se => series.contains se))

/-- The explicit-id resolution loop of `CreateIcs`: look each configured id up
(`nil` for unknown ids), and append the pointer unless it is already contained
(`slices.Contains` compares pointers; two pointers into the service map are
equal exactly when they are the same map entry, and two `nil`s are equal). -/
def resolveTournaments (tmap : List (Int × Tournament)) (cfg : SubscriptionConfig) :
    List (Option (Int × Tournament)) :=
  cfg.tournaments.foldl
    (fun acc tid =>
      let entry := (alookup tmap tid).map (fun t => (tid, t))
      if entry ∈ acc then acc else acc ++ [entry])
    ((getTournamentsForSeries tmap cfg.series).map some)

/-- The error values `CreateIcs` can return: the distinguished
`service.NotFoundError`, or any other error passed through. -/
inductive IcsError where
  | notFound
  | internal : String → IcsError
deriving DecidableEq, Repr

/-- A calendar event as emitted by `CreateIcs` (the properties the claims are
about: UID, SEQUENCE, the tournament id baked into the UID, the summary, and
the RELATED-TO reference carried by registration-phase events). -/
structure IcsEvent where
  uid : String
  tid : Int
  sequence : Nat
  summary : String
  relatedTo : Option String
deriving DecidableEq, Repr

/-- The events `CreateIcs` emits for one resolved tournament: one all-day
tournament event with UID `tournament-<id>@dg-cal` and SEQUENCE
`updateCount[tournament.Id]`, followed by one event per registration phase with
UID `registration-<id>-<i>@dg-cal`, the same SEQUENCE, and a RELATED-TO
reference to the tournament event. -/
def tournamentEvents (updateCount : Int → Nat) (t : Tournament) : List IcsEvent :=
  ⟨"tournament-" ++ toString t.id ++ "@dg-cal", t.id, updateCount t.id, t.title, none⟩ ::
    (t.registrations.enum.map (fun ri =>
      ⟨"registration-" ++ toString t.id ++ "-" ++ toString ri.1 ++ "@dg-cal",
        t.id, updateCount t.id, "Anmeldung: " ++ t.title,
        some ("tournament-" ++ toString t.id ++ "@dg-cal")⟩))

/-- Embeds `IcsService.CreateIcs`: resolve the calendar (the distinguished
NotFound condition when the id does not resolve), read the per-tournament
history counts, resolve the subscriber filter, and emit the events, skipping
`nil` entries. -/
def createIcs (db : Db) (tmap : List (Int × Tournament)) (calId : String) :
    Except IcsError (List IcsEvent) :=
  match getCalendarById db calId with
  | none => .error .notFound
  | some cal =>
    let updateCount := historyCount db
    let resolved := resolveTournaments tmap cal.config
    .ok ((resolved.filterMap id).flatMap (fun p => tournamentEvents updateCount p.2))

/-- Embeds the error mapping of `web.WebApp.IcsHandler`: `NotFoundError` maps to
HTTP 404, any other error to 500, success to 200. -/
def icsHandlerStatus (db : Db) (tmap : List (Int × Tournament)) (calId : String) : Nat :=
  match createIcs db tmap calId with
  | .error .notFound => 404
  | .error (.internal _) => 500
  | .ok _ => 200

/-! ## Helper lemmas -/

theorem daysInMonth_pos (y : Int) (m : Nat) : 1 ≤ daysInMonth y m := by
  unfold daysInMonth
  split_ifs <;> omega

/-- The composite "truncate to midnight, subtract one calendar day" really is the
calendar predecessor: following it with the independent successor function
recovers the original calendar day, and the result is a valid date. -/
theorem goPrevDay_correct (y : Int) (m d : Nat) (h : ValidDate y m d) :
    nextCivilDay (goPrevDay y m d).1 (goPrevDay y m d).2.1 (goPrevDay y m d).2.2 = (y, m, d) ∧
      ValidDate (goPrevDay y m d).1 (goPrevDay y m d).2.1 (goPrevDay y m d).2.2 := by
  obtain ⟨h1, h2, h3, h4⟩ := h
  by_cases hd : 2 ≤ d
  · have hlt : d - 1 < daysInMonth y m := by omega
    have hds : d - 1 + 1 = d := by omega
    simp only [goPrevDay, if_pos hd, nextCivilDay, if_pos hlt, ValidDate, hds]
    exact ⟨trivial, by omega⟩
  · have hd1 : d = 1 := by omega
    subst hd1
    by_cases hm : 2 ≤ m
    · have hpos : 1 ≤ daysInMonth y (m - 1) := daysInMonth_pos y (m - 1)
      have hnlt : ¬ daysInMonth y (m - 1) < daysInMonth y (m - 1) := lt_irrefl _
      have hm12 : m - 1 < 12 := by omega
      have hms : m - 1 + 1 = m := by omega
      simp only [goPrevDay, if_neg (by omega : ¬ 2 ≤ (1 : Nat)), if_pos hm, nextCivilDay,
        if_neg hnlt, if_pos hm12, ValidDate, hms]
      exact ⟨trivial, by omega⟩
    · have hm1 : m = 1 := by omega
      subst hm1
      have h12 : daysInMonth (y - 1) 12 = 31 := by norm_num [daysInMonth]
      have hys : y - 1 + 1 = y := by omega
      simp only [goPrevDay, if_neg (by omega : ¬ 2 ≤ (1 : Nat)), if_neg (by omega : ¬ 2 ≤ (1 : Nat)),
        nextCivilDay, h12, ValidDate, hys]
      norm_num

/-! ## Claim theorems -/

/-- **C4** (confirmed): for every schedule-feed tournament entry, the extractor
normalizes the exclusive raw end to an inclusive calendar date by truncating it
to midnight of its calendar day and subtracting one calendar day: the result's
stored end equals `normalizeEndDate` of the raw end, the normalization is
independent of the raw end's time of day, the normalized day is exactly the
calendar predecessor of the raw end's day (a valid date whose successor is the
raw end's day), and an exclusive end of 2024-06-03T00:00 yields the inclusive
end date 2024-06-02 (as does 2024-06-03 at any other time of day). -/
theorem c4_end_date_normalization :
    (∀ (ev : VEvent) (t res : Tournament) (e : DateTime),
        ev.dtEnd = some e → parseTournamentEvent ev t = .ok res →
        res.endDate = normalizeEndDate e) ∧
    (∀ (y : Int) (m d h mi h' mi' : Nat),
        normalizeEndDate ⟨y, m, d, h, mi⟩ = normalizeEndDate ⟨y, m, d, h', mi'⟩) ∧
    (∀ dt : DateTime, ValidDate dt.year dt.month dt.day →
        nextCivilDay (normalizeEndDate dt).year (normalizeEndDate dt).month
            (normalizeEndDate dt).day = (dt.year, dt.month, dt.day) ∧
          ValidDate (normalizeEndDate dt).year (normalizeEndDate dt).month
            (normalizeEndDate dt).day) ∧
    normalizeEndDate ⟨2024, 6, 3, 0, 0⟩ = ⟨2024, 6, 2, 0, 0⟩ ∧
    normalizeEndDate ⟨2024, 6, 3, 10, 30⟩ = ⟨2024, 6, 2, 0, 0⟩ := by
  refine ⟨?_, ?_, ?_, by decide, by decide⟩
  · intro ev t res e he hok
    unfold parseTournamentEvent at hok
    cases hs : ev.dtStart with
    | none => rw [hs] at hok; exact absurd hok (by simp)
    | some s =>
      rw [hs, he] at hok
      simp only [Except.ok.injEq] at hok
      rw [← hok]
  · intro y m d h mi h' mi'
    rfl
  · intro dt hv
    have := goPrevDay_correct dt.year dt.month dt.day hv
    simpa [normalizeEndDate] using this

/-- Witness for C4: at the concrete raw exclusive end 2024-06-03T00:00 the
validity hypothesis holds and the normalized end is the calendar predecessor,
i.e. its successor day is 2024-06-03 (and the normalized value is 2024-06-02). -/
theorem c4_witness :
    ValidDate 2024 6 3 ∧
      nextCivilDay (normalizeEndDate ⟨2024, 6, 3, 0, 0⟩).year
          (normalizeEndDate ⟨2024, 6, 3, 0, 0⟩).month
          (normalizeEndDate ⟨2024, 6, 3, 0, 0⟩).day = (2024, 6, 3) :=
  ⟨by decide, (c4_end_date_normalization.2.2.1 ⟨2024, 6, 3, 0, 0⟩ (by decide)).1⟩

/-- **C5** (counterexample): `parseDateRange` does *not* split into at most two
parts.  On input `"01.01.2024 - 02.01.2024 - 03.01.2024"` the code splits on
every hyphen (three parts), so it leaves the end unset and succeeds, whereas the
claim's at-most-two-parts parser (`parseDateRangeClaim`, modelled from the
spec's words) would parse `" 02.01.2024 - 03.01.2024"` as the end and fail. -/
theorem c5_counterexample :
    parseDateRange .dateOnly "01.01.2024 - 02.01.2024 - 03.01.2024" =
        .ok (some ⟨2024, 1, 1, 0, 0⟩, none) ∧
    parseDateRangeClaim .dateOnly "01.01.2024 - 02.01.2024 - 03.01.2024" =
        .error "failed to parse end date" ∧
    parseDateRange .dateOnly "01.01.2024 - 02.01.2024 - 03.01.2024" ≠
      parseDateRangeClaim .dateOnly "01.01.2024 - 02.01.2024 - 03.01.2024" := by
  refine ⟨rfl, rfl, ?_⟩
  intro hcontra
  rw [show parseDateRange .dateOnly "01.01.2024 - 02.01.2024 - 03.01.2024" =
        .ok (some ⟨2024, 1, 1, 0, 0⟩, none) from rfl,
      show parseDateRangeClaim .dateOnly "01.01.2024 - 02.01.2024 - 03.01.2024" =
        .error "failed to parse end date" from rfl] at hcontra
  exact Except.noConfusion hcontra

/-- **C5** (amended): the shared date-range parser splits its input on *every*
literal hyphen; the first part is parsed as a local timestamp in the given
format; the parsed second part is returned as the end exactly when the split
yields two parts (exactly one hyphen); with any other number of hyphens the end
is left unset.  In particular `"01.01.2024"` yields start = end = 2024-01-01
for the tournament date-range field (the caller defaults end = start), and
`"01.01.2024 10:00 - 02.01.2024 12:00"` yields start = 2024-01-01T10:00 and
end = 2024-01-02T12:00. -/
theorem c5_amended_range_parsing :
    turnierbetriebDates "01.01.2024" = some (⟨2024, 1, 1, 0, 0⟩, ⟨2024, 1, 1, 0, 0⟩) ∧
    parseDateRange .dateTimeMin "01.01.2024 10:00 - 02.01.2024 12:00" =
        .ok (some ⟨2024, 1, 1, 10, 0⟩, some ⟨2024, 1, 2, 12, 0⟩) ∧
    (∀ (layout : DateLayout) (s : String) (r : Option DateTime × Option DateTime),
        s.toList.count '-' ≠ 1 → parseDateRange layout s = .ok r → r.2 = none) := by
  refine ⟨rfl, rfl, ?_⟩
  intro layout s r hcount hok
  have hlen := goSplit_length '-' s.toList
  unfold parseDateRange at hok
  split at hok
  · simp only [Except.ok.injEq] at hok
    rw [← hok]
  · rename_i p0 rest heq
    rw [heq] at hlen
    split at hok
    · exact absurd hok (by simp)
    · split at hok
      · split at hok
        · exact absurd hok (by simp)
        · exfalso
          simp only [List.length_cons, List.length_nil] at hlen
          omega
      · simp only [Except.ok.injEq] at hok
        rw [← hok]

/-- Witness for C5: at the concrete three-part input the hypothesis (hyphen
count different from one) holds and the parsed end is unset. -/
theorem c5_witness :
    ∃ r, parseDateRange .dateOnly "01.01.2024 - 02.01.2024 - 03.01.2024" = .ok r ∧
      r.2 = none :=
  ⟨(some ⟨2024, 1, 1, 0, 0⟩, none), rfl,
    c5_amended_range_parsing.2.2 .dateOnly "01.01.2024 - 02.01.2024 - 03.01.2024"
      (some ⟨2024, 1, 1, 0, 0⟩, none) (by decide) rfl⟩

/-- **C8** (code bug): a schedule-feed UID with the correct domain suffix but
missing hyphen-separated segments makes `typeAndId` (and hence the whole
extractor `parseIcsEvents`) *panic* with an index-out-of-range runtime error
instead of returning an error value: `parts[1]` (respectively `parts[2]` for a
`"registration-"` UID without its third segment) is indexed unchecked.  The
other format violations (wrong suffix, non-numeric id) are returned as error
values, which is the claimed — and evidently intended — behavior. -/
theorem c8_typeAndId_panics :
    typeAndId "123@turniere.discgolf.de" = .panics "runtime error: index out of range" ∧
    typeAndId "registration-7@turniere.discgolf.de" =
        .panics "runtime error: index out of range" ∧
    parseIcsEvents [⟨"123@turniere.discgolf.de", none, none, none⟩] =
        .panics "runtime error: index out of range" ∧
    typeAndId "123@example.org" = .err "Unknown uid fromat" ∧
    typeAndId "tournament-abc@turniere.discgolf.de" = .err "Id is not an int" :=
  ⟨rfl, rfl, rfl, rfl, rfl⟩

/-! ## Concrete sample data for witnesses and counterexamples -/

/-- Detail-page result used by the concrete sync scenarios. -/
def exDetails : EventDetails :=
  ⟨1, "T", goZeroTime, goZeroTime, "loc", "", ["A"], "", "", false, []⟩

/-- Detail fetcher that always succeeds with `exDetails`. -/
def exFetchDetails : Int → Except String EventDetails := fun _ => .ok exDetails

/-- Service state with no tournaments and an empty repository. -/
def emptyState : ServiceState := ⟨[], ⟨[], [], [], []⟩, none⟩

/-- A fetched remote record for tournament 1, remote change instant 5. -/
def exFetched1 : Tournament := { zeroTournament with id := 1, updatedAt := 5 }

/-- The same tournament fetched after a further remote change (instant 7). -/
def exFetched2 : Tournament := { zeroTournament with id := 1, updatedAt := 7 }

/-- Tournament 7 (series "B", one registration phase, two history snapshots in
`sampleDb`). -/
def sampleT7 : Tournament :=
  { zeroTournament with
      id := 7
      title := "Seven"
      series := ["B"]
      registrations := [⟨"phase1", goZeroTime, goZeroTime⟩] }

/-- Tournament 9 (series "A", no history snapshots). -/
def sampleT9 : Tournament := { zeroTournament with id := 9, title := "Nine", series := ["A"] }

/-- A stored subscriber calendar: explicit tournament 7 plus series "A". -/
def sampleCal : Calendar := ⟨"cal1", "My calendar", ⟨[7], ["A"]⟩⟩

/-- Repository state holding `sampleCal` and two history snapshots for id 7. -/
def sampleDb : Db := ⟨[], [], [⟨7, 50, 5, sampleT7⟩, ⟨7, 60, 6, sampleT7⟩], [sampleCal]⟩

/-- In-memory tournament map holding tournaments 7 and 9. -/
def sampleTmap : List (Int × Tournament) := [(7, sampleT7), (9, sampleT9)]

/-- **C3** (code bug): the history table does *not* enforce at most one snapshot
per (tournament id, calendar day).  `CreateTurnamentHistory` inserts the full
`time.Now()` timestamp into the `date` column, so the schema's
`UNIQUE(tournament_id, date)` constraint only rejects duplicates of the exact
insertion instant: two changed sync cycles for the same tournament on the same
calendar day (instants 100 and 200 of day 0) both insert, leaving two snapshots
for (id 1, day 0) — each changed cycle does append exactly one snapshot. -/
theorem c3_same_day_second_snapshot :
    (Sync exFetchDetails 100 emptyState [exFetched1]).map
        (fun s => s.db.history.length) = .ok 1 ∧
    ((Sync exFetchDetails 100 emptyState [exFetched1]).bind
        (fun s1 => Sync exFetchDetails 200 s1 [exFetched2])).map
      (fun s2 => (s2.db.history.filter
        (fun h => h.tournamentId == 1 && dayOf h.date == dayOf 100)).length) = .ok 2 ∧
    dayOf 100 = dayOf 200 :=
  ⟨rfl, rfl, rfl⟩

theorem tournamentEvents_sequence (uc : Int → Nat) (t : Tournament) :
    ∀ ev ∈ tournamentEvents uc t, ev.sequence = uc ev.tid := by
  intro ev hev
  rcases List.mem_cons.mp hev with h | h
  · subst h
    rfl
  · rw [List.mem_map] at h
    obtain ⟨ri, hri, h⟩ := h
    subst h
    rfl

/-- **C1** (confirmed): every event a generated feed emits — the tournament
event and each registration-phase event alike — carries as its SEQUENCE number
exactly the count of history snapshots stored for its tournament id at export
time (`GetCalendarUpdateCount`, i.e. the number of `tournament_history` rows
for that id, zero when there are none). -/
theorem c1_sequence_eq_history_count (db : Db) (tmap : List (Int × Tournament))
    (calId : String) (evs : List IcsEvent)
    (hok : createIcs db tmap calId = .ok evs) :
    ∀ ev ∈ evs, ev.sequence = historyCount db ev.tid := by
  unfold createIcs at hok
  split at hok
  · exact absurd hok (by simp)
  · simp only [Except.ok.injEq] at hok
    subst hok
    intro ev hev
    rw [List.mem_flatMap] at hev
    obtain ⟨p, hp, hev⟩ := hev
    exact tournamentEvents_sequence _ p.2 ev hev

/-- Witness for C1: a concrete export (calendar `"cal1"`, tournaments 7 and 9,
two stored snapshots for id 7) succeeds and every emitted event's SEQUENCE is
its tournament's snapshot count. -/
theorem c1_witness :
    ∃ evs, createIcs sampleDb sampleTmap "cal1" = .ok evs ∧
      ∀ ev ∈ evs, ev.sequence = historyCount sampleDb ev.tid :=
  ⟨_, rfl, c1_sequence_eq_history_count sampleDb sampleTmap "cal1" _ rfl⟩

/-- **C7** (confirmed): feed generation fails with the distinguished NotFound
error exactly when the calendar id does not resolve to a stored subscriber
calendar (never for ids that do resolve, and never as a generic error or empty
export for unknown ids), and the web handler maps exactly that error to an
HTTP 404 response. -/
theorem c7_notfound_condition (db : Db) (tmap : List (Int × Tournament)) (calId : String) :
    (createIcs db tmap calId = .error .notFound ↔ getCalendarById db calId = none) ∧
    (icsHandlerStatus db tmap calId = 404 ↔ createIcs db tmap calId = .error .notFound) := by
  constructor
  · unfold createIcs
    cases h : getCalendarById db calId <;> simp
  · unfold icsHandlerStatus
    cases h : createIcs db tmap calId with
    | error e => cases e <;> simp
    | ok v => simp

/-! ### C10: the `FetchTournaments` merge -/

/-- The record the merge loop would store for one listing entry (`none` when the
entry is dropped): the characterization the fold is proved equal to. -/
def mergeEntry (ts : List (Int × Tournament)) (idu : Int × TournamentUpdate) :
    Option (Int × Tournament) :=
  match alookup ts idu.1 with
  | some t =>
    some (idu.1, { t with updatedAt := idu.2.updated, status := idu.2.status })
  | none =>
    if idu.2.status = TOURNAMENT_STATUS_CANCELLED ∨
        idu.2.status = TOURNAMENT_STATUS_DONE then
      some (idu.1,
        { { zeroTournament with id := idu.1, status := idu.2.status } with
            updatedAt := idu.2.updated, status := idu.2.status })
    else none

theorem mergeStep_eq_mergeEntry (ts : List (Int × Tournament))
    (acc : List (Int × Tournament)) (idu : Int × TournamentUpdate) :
    mergeStep ts acc idu =
      match mergeEntry ts idu with
      | some kv => aupdate acc kv.1 kv.2
      | none => acc := by
  unfold mergeStep mergeEntry
  cases alookup ts idu.1 with
  | some t => rfl
  | none =>
    by_cases h : idu.2.status = TOURNAMENT_STATUS_CANCELLED ∨
        idu.2.status = TOURNAMENT_STATUS_DONE <;> simp [h]

theorem aupdate_of_not_mem_keys {α : Type} (acc : List (Int × α)) (k : Int) (v : α)
    (h : k ∉ acc.map Prod.fst) : aupdate acc k v = acc ++ [(k, v)] := by
  induction acc with
  | nil => rfl
  | cons p rest ih =>
    obtain ⟨p1, p2⟩ := p
    simp only [List.map_cons, List.mem_cons] at h
    push_neg at h
    have hne : p1 ≠ k := Ne.symm h.1
    simp only [aupdate, if_neg hne, List.cons_append]
    rw [ih h.2]

theorem mergeEntry_key (ts : List (Int × Tournament)) (idu : Int × TournamentUpdate)
    (kv : Int × Tournament) (h : mergeEntry ts idu = some kv) : kv.1 = idu.1 := by
  unfold mergeEntry at h
  cases halo : alookup ts idu.1 with
  | some t =>
    rw [halo] at h
    simp only [Option.some.injEq] at h
    rw [← h]
  | none =>
    rw [halo] at h
    by_cases hc : idu.2.status = TOURNAMENT_STATUS_CANCELLED ∨
        idu.2.status = TOURNAMENT_STATUS_DONE
    · rw [if_pos hc] at h
      simp only [Option.some.injEq] at h
      rw [← h]
    · rw [if_neg hc] at h
      exact absurd h (by simp)

theorem fetchMerge_aux (ts : List (Int × Tournament))
    (upd : List (Int × TournamentUpdate)) (acc : List (Int × Tournament))
    (hnd : (upd.map Prod.fst).Nodup)
    (hdisj : ∀ id ∈ upd.map Prod.fst, id ∉ acc.map Prod.fst) :
    upd.foldl (mergeStep ts) acc = acc ++ upd.filterMap (mergeEntry ts) := by
  induction upd generalizing acc with
  | nil => simp
  | cons idu rest ih =>
    simp only [List.map_cons, List.nodup_cons] at hnd
    cases hme : mergeEntry ts idu with
    | none =>
      have hstep : mergeStep ts acc idu = acc := by
        rw [mergeStep_eq_mergeEntry, hme]
      simp only [List.foldl_cons, hstep, List.filterMap_cons, hme]
      exact ih acc hnd.2 (fun id hid => hdisj id (List.mem_cons_of_mem _ hid))
    | some kv =>
      have hkey : kv.1 = idu.1 := mergeEntry_key ts idu kv hme
      have hnotin : kv.1 ∉ acc.map Prod.fst := by
        rw [hkey]
        exact hdisj idu.1 (List.mem_cons_self _ _)
      have hstep : mergeStep ts acc idu = acc ++ [(kv.1, kv.2)] := by
        rw [mergeStep_eq_mergeEntry, hme]
        exact aupdate_of_not_mem_keys acc kv.1 kv.2 hnotin
      simp only [List.foldl_cons, hstep, List.filterMap_cons, hme]
      rw [ih (acc ++ [(kv.1, kv.2)]) hnd.2 ?_]
      · simp
      · intro id hid hmem
        rw [List.map_append, List.mem_append] at hmem
        rcases hmem with hin | hin
        · exact hdisj id (List.mem_cons_of_mem _ hid) hin
        · simp only [List.map_cons, List.map_nil, List.mem_singleton] at hin
          rw [hkey] at hin
          subst hin
          exact hnd.1 hid

theorem fetchTournamentsMerge_eq (updates : List (Int × TournamentUpdate))
    (ts : List (Int × Tournament)) (hnd : (updates.map Prod.fst).Nodup) :
    fetchTournamentsMerge updates ts = updates.filterMap (mergeEntry ts) := by
  unfold fetchTournamentsMerge
  rw [fetchMerge_aux ts updates [] hnd (by simp)]
  simp

/-- **C10** (confirmed): the merged remote fetch returns an entry for a
tournament id iff the id appears in the listing and either also appears in the
schedule feed or has listing status cancelled or done; ids present only in the
schedule feed are never returned; and every returned entry carries the
listing's status and last-changed instant (overriding whatever the schedule
feed supplied). -/
theorem c10_merge_characterization (updates : List (Int × TournamentUpdate))
    (ts : List (Int × Tournament)) (hnd : (updates.map Prod.fst).Nodup) :
    (∀ id t, (id, t) ∈ fetchTournamentsMerge updates ts →
        ∃ u, (id, u) ∈ updates ∧ t.updatedAt = u.updated ∧ t.status = u.status ∧
          ((alookup ts id).isSome ∨ u.status = TOURNAMENT_STATUS_CANCELLED ∨
            u.status = TOURNAMENT_STATUS_DONE)) ∧
    (∀ id u, (id, u) ∈ updates →
        ((alookup ts id).isSome ∨ u.status = TOURNAMENT_STATUS_CANCELLED ∨
          u.status = TOURNAMENT_STATUS_DONE) →
        ∃ t, (id, t) ∈ fetchTournamentsMerge updates ts ∧
          t.updatedAt = u.updated ∧ t.status = u.status) ∧
    (∀ id t, (id, t) ∈ fetchTournamentsMerge updates ts →
        id ∈ updates.map Prod.fst) := by
  rw [fetchTournamentsMerge_eq updates ts hnd]
  refine ⟨?_, ?_, ?_⟩
  · intro id t hmem
    rw [List.mem_filterMap] at hmem
    obtain ⟨⟨iid, u⟩, hidu, hme⟩ := hmem
    simp only [mergeEntry] at hme
    cases halo : alookup ts iid with
    | some t0 =>
      simp only [halo, Option.some.injEq, Prod.mk.injEq] at hme
      obtain ⟨hid, ht⟩ := hme
      subst hid
      refine ⟨u, hidu, ?_, ?_, Or.inl (by simp [halo])⟩
      · rw [← ht]
      · rw [← ht]
    | none =>
      simp only [halo] at hme
      by_cases hc : u.status = TOURNAMENT_STATUS_CANCELLED ∨
          u.status = TOURNAMENT_STATUS_DONE
      · rw [if_pos hc] at hme
        simp only [Option.some.injEq, Prod.mk.injEq] at hme
        obtain ⟨hid, ht⟩ := hme
        subst hid
        refine ⟨u, hidu, ?_, ?_, ?_⟩
        · rw [← ht]
        · rw [← ht]
        · rcases hc with hc | hc
          · exact Or.inr (Or.inl hc)
          · exact Or.inr (Or.inr hc)
      · rw [if_neg hc] at hme
        exact absurd hme (by simp)
  · intro id u hmem hcond
    cases halo : alookup ts id with
    | some t0 =>
      refine ⟨{ t0 with updatedAt := u.updated, status := u.status },
        List.mem_filterMap.mpr ⟨(id, u), hmem, ?_⟩, rfl, rfl⟩
      simp only [mergeEntry, halo]
    | none =>
      rcases hcond with hcond | hcond | hcond
      · rw [halo] at hcond
        exact absurd hcond (by simp)
      · refine ⟨{ { zeroTournament with id := id, status := u.status } with
            updatedAt := u.updated, status := u.status },
          List.mem_filterMap.mpr ⟨(id, u), hmem, ?_⟩, rfl, rfl⟩
        simp only [mergeEntry, halo]
        rw [if_pos (Or.inl hcond)]
      · refine ⟨{ { zeroTournament with id := id, status := u.status } with
            updatedAt := u.updated, status := u.status },
          List.mem_filterMap.mpr ⟨(id, u), hmem, ?_⟩, rfl, rfl⟩
        simp only [mergeEntry, halo]
        rw [if_pos (Or.inr hcond)]
  · intro id t hmem
    rw [List.mem_filterMap] at hmem
    obtain ⟨idu, hidu, hme⟩ := hmem
    have hkey : id = idu.1 := by
      have := mergeEntry_key ts idu (id, t) hme
      simpa using this
    subst hkey
    exact List.mem_map.mpr ⟨idu, hidu, rfl⟩

/-- Listing rows for the C10 witness: id 1 announced, id 2 cancelled. -/
def c10upd : List (Int × TournamentUpdate) := [(1, ⟨10, "ANNOUNCED"⟩), (2, ⟨20, "CANCELLED"⟩)]

/-- Schedule-feed map for the C10 witness: only id 1 present. -/
def c10ts : List (Int × Tournament) := [(1, { zeroTournament with id := 1, title := "A" })]

/-- Witness for C10: the cancelled listing-only tournament 2 is returned with
the listing's status and instant. -/
theorem c10_witness :
    ∃ t, (2, t) ∈ fetchTournamentsMerge c10upd c10ts ∧
      t.updatedAt = 20 ∧ t.status = "CANCELLED" :=
  (c10_merge_characterization c10upd c10ts (by decide)).2.1 2 ⟨20, "CANCELLED"⟩
    (by simp [c10upd]) (Or.inr (Or.inl rfl))

/-! ### C2: skip condition, monotonicity, idempotence of `Sync` -/

theorem exceptMap_ok {α β : Type} (f : α → β) (x : Except String α) (b : β)
    (h : x.map f = .ok b) : ∃ a, x = .ok a ∧ b = f a := by
  cases x with
  | error e => exact absurd h (by simp [Except.map])
  | ok a =>
    simp only [Except.map, Except.ok.injEq] at h
    exact ⟨a, rfl, h.symm⟩

theorem syncOne_skip (details : Int → Except String EventDetails) (now : Int)
    (st : ServiceState) (f : Tournament) (stored : Tournament)
    (hlook : alookup st.tournaments f.id = some stored)
    (hnot : ¬ stored.updatedAt < f.updatedAt) :
    syncOne details now st f = .ok st := by
  unfold syncOne
  rw [hlook]
  simp [hnot]

theorem syncOne_monotone (details : Int → Except String EventDetails) (now : Int)
    (st : ServiceState) (f : Tournament) (st' : ServiceState)
    (hok : syncOne details now st f = .ok st') :
    ∀ id t, alookup st.tournaments id = some t →
      ∃ t', alookup st'.tournaments id = some t' ∧ t.updatedAt ≤ t'.updatedAt := by
  unfold syncOne at hok
  by_cases hc : (match alookup st.tournaments f.id with
      | none => true
      | some stored => decide (stored.updatedAt < f.updatedAt)) = true
  · rw [if_pos hc] at hok
    cases hd : details f.id with
    | error e =>
      rw [hd] at hok
      exact absurd hok (by simp)
    | ok d =>
      rw [hd] at hok
      unfold syncCommit at hok
      obtain ⟨db3, hdb3, hst'⟩ := exceptMap_ok _ _ _ hok
      subst hst'
      intro id t hlook
      by_cases hid : id = f.id
      · subst hid
        refine ⟨withPhases (mergeDetails f d) d, ?_, ?_⟩
        · exact alookup_aupdate_self st.tournaments _ _
        · have hupd : (withPhases (mergeDetails f d) d).updatedAt = f.updatedAt := rfl
          rw [hupd]
          rw [hlook] at hc
          simp only [decide_eq_true_eq] at hc
          exact le_of_lt hc
      · refine ⟨t, ?_, le_refl _⟩
        have : (mergeDetails f d).id = f.id := rfl
        rw [this]
        rw [alookup_aupdate_ne st.tournaments f.id id _ (fun hcontra => hid hcontra.symm)]
        exact hlook
  · rw [if_neg hc] at hok
    simp only [Except.ok.injEq] at hok
    subst hok
    intro id t hlook
    exact ⟨t, hlook, le_refl _⟩

theorem syncOne_post (details : Int → Except String EventDetails) (now : Int)
    (st : ServiceState) (f : Tournament) (st' : ServiceState)
    (hok : syncOne details now st f = .ok st') :
    ∃ t', alookup st'.tournaments f.id = some t' ∧ f.updatedAt ≤ t'.updatedAt := by
  unfold syncOne at hok
  by_cases hc : (match alookup st.tournaments f.id with
      | none => true
      | some stored => decide (stored.updatedAt < f.updatedAt)) = true
  · rw [if_pos hc] at hok
    cases hd : details f.id with
    | error e =>
      rw [hd] at hok
      exact absurd hok (by simp)
    | ok d =>
      rw [hd] at hok
      unfold syncCommit at hok
      obtain ⟨db3, hdb3, hst'⟩ := exceptMap_ok _ _ _ hok
      subst hst'
      exact ⟨withPhases (mergeDetails f d) d,
        alookup_aupdate_self st.tournaments _ _, le_refl _⟩
  · rw [if_neg hc] at hok
    simp only [Except.ok.injEq] at hok
    subst hok
    cases hlook : alookup st.tournaments f.id with
    | none =>
      rw [hlook] at hc
      simp at hc
    | some stored =>
      rw [hlook] at hc
      simp only [decide_eq_true_eq] at hc
      exact ⟨stored, rfl, not_lt.mp hc⟩

theorem syncAll_monotone (details : Int → Except String EventDetails) (now : Int)
    (st : ServiceState) (l : List Tournament) (st' : ServiceState)
    (hok : syncAll details now st l = .ok st') :
    ∀ id t, alookup st.tournaments id = some t →
      ∃ t', alookup st'.tournaments id = some t' ∧ t.updatedAt ≤ t'.updatedAt := by
  induction l generalizing st with
  | nil =>
    simp only [syncAll, Except.ok.injEq] at hok
    subst hok
    intro id t h
    exact ⟨t, h, le_refl _⟩
  | cons f rest ih =>
    simp only [syncAll] at hok
    cases hone : syncOne details now st f with
    | error e =>
      rw [hone] at hok
      exact absurd hok (by simp)
    | ok st1 =>
      rw [hone] at hok
      intro id t hlook
      obtain ⟨t1, hlook1, hle1⟩ := syncOne_monotone details now st f st1 hone id t hlook
      obtain ⟨t2, hlook2, hle2⟩ := ih st1 hok id t1 hlook1
      exact ⟨t2, hlook2, le_trans hle1 hle2⟩

theorem syncAll_post (details : Int → Except String EventDetails) (now : Int)
    (st : ServiceState) (l : List Tournament) (st' : ServiceState)
    (hok : syncAll details now st l = .ok st') :
    ∀ f ∈ l, ∃ t', alookup st'.tournaments f.id = some t' ∧
      f.updatedAt ≤ t'.updatedAt := by
  induction l generalizing st with
  | nil =>
    intro f hf
    exact absurd hf (by simp)
  | cons g rest ih =>
    simp only [syncAll] at hok
    cases hone : syncOne details now st g with
    | error e =>
      rw [hone] at hok
      exact absurd hok (by simp)
    | ok st1 =>
      rw [hone] at hok
      intro f hf
      rcases List.mem_cons.mp hf with hf | hf
      · subst hf
        obtain ⟨t1, hlook1, hle1⟩ := syncOne_post details now st f st1 hone
        obtain ⟨t2, hlook2, hle2⟩ := syncAll_monotone details now st1 rest st' hok f.id t1 hlook1
        exact ⟨t2, hlook2, le_trans hle1 hle2⟩
      · exact ih st1 hok f hf

theorem syncAll_skip (details : Int → Except String EventDetails) (now : Int)
    (st : ServiceState) (l : List Tournament)
    (h : ∀ f ∈ l, ∃ t', alookup st.tournaments f.id = some t' ∧
      f.updatedAt ≤ t'.updatedAt) :
    syncAll details now st l = .ok st := by
  induction l with
  | nil => rfl
  | cons f rest ih =>
    obtain ⟨t', hlook, hle⟩ := h f (List.mem_cons_self _ _)
    have hskip := syncOne_skip details now st f t' hlook (not_lt.mpr hle)
    simp only [syncAll, hskip]
    exact ih (fun g hg => h g (List.mem_cons_of_mem _ hg))

/-- **C2** (confirmed): (a) when the fetched record's `updatedAt` is not
strictly greater than the stored record's, the sync iteration for that id
applies nothing at all — no in-memory change, no tournament or registration
write, no history snapshot: the state is returned unchanged; (b) a successful
cycle never decreases any id's committed `updatedAt`, so over successive cycles
the committed values are non-decreasing; (c) rerunning a cycle on the same
fetched records right after a successful run changes nothing except the
last-sync instant — in particular the same unchanged remote record applied
twice produces no new snapshot and no store write. -/
theorem c2_sync_invariants :
    (∀ (details : Int → Except String EventDetails) (now : Int) (st : ServiceState)
        (f : Tournament) (stored : Tournament),
        alookup st.tournaments f.id = some stored →
        ¬ stored.updatedAt < f.updatedAt →
        syncOne details now st f = .ok st) ∧
    (∀ (details : Int → Except String EventDetails) (now : Int) (st : ServiceState)
        (l : List Tournament) (st' : ServiceState),
        Sync details now st l = .ok st' →
        ∀ id t, alookup st.tournaments id = some t →
          ∃ t', alookup st'.tournaments id = some t' ∧ t.updatedAt ≤ t'.updatedAt) ∧
    (∀ (details : Int → Except String EventDetails) (now : Int) (st : ServiceState)
        (l : List Tournament) (st1 : ServiceState),
        Sync details now st l = .ok st1 →
        ∀ (details2 : Int → Except String EventDetails) (now2 : Int),
          Sync details2 now2 st1 l = .ok { st1 with lastSync := some now2 }) := by
  refine ⟨syncOne_skip, ?_, ?_⟩
  · intro details now st l st' hok id t hlook
    unfold Sync at hok
    cases hall : syncAll details now st l with
    | error e =>
      rw [hall] at hok
      exact absurd hok (by simp)
    | ok st'' =>
      rw [hall] at hok
      simp only [Except.ok.injEq] at hok
      subst hok
      exact syncAll_monotone details now st l st'' hall id t hlook
  · intro details now st l st1 hok details2 now2
    unfold Sync at hok ⊢
    cases hall : syncAll details now st l with
    | error e =>
      rw [hall] at hok
      exact absurd hok (by simp)
    | ok st'' =>
      rw [hall] at hok
      simp only [Except.ok.injEq] at hok
      subst hok
      have hpost := syncAll_post details now st l st'' hall
      have hskip := syncAll_skip details2 now2 { st'' with lastSync := some now } l
        (fun f hf => hpost f hf)
      rw [hskip]

/-- Stored record for the C2 witness (same remote instant as the fetch). -/
def c2stored : Tournament := { zeroTournament with id := 1, updatedAt := 5 }

/-- Service state holding `c2stored` for the C2 witness. -/
def c2state : ServiceState := ⟨[(1, c2stored)], ⟨[], [], [], []⟩, none⟩

/-- Witness for C2: a fetched record whose `updatedAt` equals the stored value
is skipped — the iteration returns the state unchanged. -/
theorem c2_witness : syncOne exFetchDetails 100 c2state exFetched1 = .ok c2state :=
  c2_sync_invariants.1 exFetchDetails 100 c2state exFetched1 c2stored rfl (by decide)

/-! ### C6: subscriber-filter resolution -/

theorem mem_filterMap_id {α : Type} (l : List (Option α)) (x : α) :
    x ∈ l.filterMap id ↔ some x ∈ l := by
  rw [List.mem_filterMap]
  constructor
  · rintro ⟨o, ho, hid⟩
    cases o with
    | none => exact absurd hid (by simp)
    | some a =>
      simp only [id_eq, Option.some.injEq] at hid
      subst hid
      exact ho
  · intro h
    exact ⟨some x, h, rfl⟩

theorem resolve_fold_mem (tmap : List (Int × Tournament)) (l : List Int)
    (acc : List (Option (Int × Tournament))) (x : Option (Int × Tournament)) :
    x ∈ l.foldl (fun acc tid =>
        let entry := (alookup tmap tid).map (fun t => (tid, t))
        if entry ∈ acc then acc else acc ++ [entry]) acc ↔
      x ∈ acc ∨ ∃ tid ∈ l, x = (alookup tmap tid).map (fun t => (tid, t)) := by
  induction l generalizing acc with
  | nil => simp
  | cons tid rest ih =>
    simp only [List.foldl_cons]
    rw [ih]
    have hstep : ∀ y : Option (Int × Tournament),
        y ∈ (if (alookup tmap tid).map (fun t => (tid, t)) ∈ acc then acc
          else acc ++ [(alookup tmap tid).map (fun t => (tid, t))]) ↔
          y ∈ acc ∨ y = (alookup tmap tid).map (fun t => (tid, t)) := by
      intro y
      by_cases he : (alookup tmap tid).map (fun t => (tid, t)) ∈ acc
      · rw [if_pos he]
        constructor
        · exact Or.inl
        · rintro (h | h)
          · exact h
          · subst h
            exact he
      · rw [if_neg he]
        simp
    rw [hstep x]
    simp only [List.mem_cons]
    constructor
    · rintro ((h | h) | ⟨tid', htid', h⟩)
      · exact Or.inl h
      · exact Or.inr ⟨tid, Or.inl rfl, h⟩
      · exact Or.inr ⟨tid', Or.inr htid', h⟩
    · rintro (h | ⟨tid', htid' | htid', h⟩)
      · exact Or.inl (Or.inl h)
      · subst htid'
        exact Or.inl (Or.inr h)
      · exact Or.inr ⟨tid', htid', h⟩

theorem resolve_fold_invariant (tmap : List (Int × Tournament))
    (l : List Int) (acc : List (Option (Int × Tournament)))
    (hprop : ∀ i t, some (i, t) ∈ acc → alookup tmap i = some t)
    (hnd : ((acc.filterMap id).map Prod.fst).Nodup) :
    (∀ i t, some (i, t) ∈ l.foldl (fun acc tid =>
        let entry := (alookup tmap tid).map (fun t => (tid, t))
        if entry ∈ acc then acc else acc ++ [entry]) acc → alookup tmap i = some t) ∧
    (((l.foldl (fun acc tid =>
        let entry := (alookup tmap tid).map (fun t => (tid, t))
        if entry ∈ acc then acc else acc ++ [entry]) acc).filterMap id).map Prod.fst).Nodup := by
  induction l generalizing acc with
  | nil => exact ⟨hprop, hnd⟩
  | cons tid rest ih =>
    simp only [List.foldl_cons]
    by_cases he : (alookup tmap tid).map (fun t => (tid, t)) ∈ acc
    · rw [if_pos he]
      exact ih acc hprop hnd
    · rw [if_neg he]
      refine ih _ ?_ ?_
      · intro i t hmem
        rw [List.mem_append] at hmem
        rcases hmem with hmem | hmem
        · exact hprop i t hmem
        · simp only [List.mem_singleton] at hmem
          cases halo : alookup tmap tid with
          | none =>
            rw [halo] at hmem
            exact absurd hmem (by simp)
          | some t0 =>
            rw [halo] at hmem
            simp only [Option.map_some', Option.some.injEq, Prod.mk.injEq] at hmem
            obtain ⟨hi, ht⟩ := hmem
            subst hi
            subst ht
            exact halo
      · cases halo : alookup tmap tid with
        | none =>
          simp only [Option.map_none', List.filterMap_append, List.filterMap_cons,
            List.filterMap_nil, id_eq, List.append_nil]
          exact hnd
        | some t0 =>
          simp only [Option.map_some'] at he ⊢
          simp only [List.filterMap_append, List.filterMap_cons, List.filterMap_nil,
            id_eq, List.map_append]
          rw [List.nodup_append]
          refine ⟨hnd, by simp, ?_⟩
          intro a ha hamem
          simp only [List.map_cons, List.map_nil, List.mem_singleton] at hamem
          rw [List.mem_map] at ha
          obtain ⟨p, hp, hpa⟩ := ha
          rw [mem_filterMap_id] at hp
          have hlook := hprop p.1 p.2 (by simpa using hp)
          rw [hpa, hamem, halo] at hlook
          simp only [Option.some.injEq] at hlook
          apply he
          rw [halo]
          simp only [Option.map_some']
          have hpeq : p = (tid, t0) := by
            obtain ⟨p1, p2⟩ := p
            simp only at hpa hamem hlook
            rw [hpa, hamem, ← hlook]
          rw [← hpeq]
          exact hp

theorem tournamentEvents_filter (uc : Int → Nat) (t : Tournament) :
    (tournamentEvents uc t).filter (fun ev => ev.relatedTo = none) =
      [⟨"tournament-" ++ toString t.id ++ "@dg-cal", t.id, uc t.id, t.title, none⟩] := by
  unfold tournamentEvents
  rw [List.filter_cons_of_pos rfl]
  congr 1
  rw [List.filter_eq_nil_iff]
  intro ev hev
  rw [List.mem_map] at hev
  obtain ⟨ri, hri, hev⟩ := hev
  rw [← hev]
  simp

theorem flatMap_tournament_kind (uc : Int → Nat) (lst : List (Int × Tournament)) :
    (lst.flatMap (fun p => tournamentEvents uc p.2)).filter (fun ev => ev.relatedTo = none) =
      lst.map (fun p =>
        ⟨"tournament-" ++ toString p.2.id ++ "@dg-cal", p.2.id, uc p.2.id, p.2.title, none⟩) := by
  induction lst with
  | nil => rfl
  | cons p rest ih =>
    simp only [List.flatMap_cons, List.filter_append, ih, List.map_cons,
      tournamentEvents_filter]
    rfl

/-- **C6** (confirmed): for a resolvable calendar id, feed generation succeeds
(explicit ids that do not resolve are silently skipped, producing neither an
event nor an error), emits no tournament twice (the tournament-kind events
carry pairwise distinct tournament ids), and emits a tournament event for
exactly the union of the tournaments whose series intersects the subscribed
series set and the known tournaments explicitly listed by id. -/
theorem c6_subscriber_resolution (db : Db) (tmap : List (Int × Tournament))
    (calId : String) (cal : Calendar)
    (hnd : (tmap.map Prod.fst).Nodup)
    (hids : ∀ p ∈ tmap, Tournament.id p.2 = p.1)
    (hcal : getCalendarById db calId = some cal) :
    ∃ evs, createIcs db tmap calId = .ok evs ∧
      ((evs.filter (fun ev => ev.relatedTo = none)).map (fun ev => ev.tid)).Nodup ∧
      (∀ x : Int,
        (∃ ev ∈ evs, ev.relatedTo = none ∧ ev.tid = x) ↔
        (∃ t, alookup tmap x = some t ∧
          (t.series.any (fun se => cal.config.series.contains se) = true ∨
            x ∈ cal.config.tournaments))) := by
  have hok : createIcs db tmap calId =
      .ok (((resolveTournaments tmap cal.config).filterMap id).flatMap
        (fun p => tournamentEvents (historyCount db) p.2)) := by
    unfold createIcs
    rw [hcal]
  have hres : resolveTournaments tmap cal.config =
      cal.config.tournaments.foldl (fun acc tid =>
        let entry := (alookup tmap tid).map (fun t => (tid, t))
        if entry ∈ acc then acc else acc ++ [entry])
      ((getTournamentsForSeries tmap cal.config.series).map some) := rfl
  have hinit_fm : ((getTournamentsForSeries tmap cal.config.series).map some).filterMap id =
      getTournamentsForSeries tmap cal.config.series := by
    rw [List.filterMap_map]
    simp only [Function.comp_def, id_eq]
    exact List.filterMap_some (getTournamentsForSeries tmap cal.config.series)
  have hprop0 : ∀ i t, some (i, t) ∈ (getTournamentsForSeries tmap cal.config.series).map some →
      alookup tmap i = some t := by
    intro i t h
    rw [List.mem_map] at h
    obtain ⟨q, hq, heq⟩ := h
    simp only [Option.some.injEq] at heq
    subst heq
    unfold getTournamentsForSeries at hq
    rw [List.mem_filter] at hq
    exact mem_alookup hnd hq.1
  have hnd0 : ((((getTournamentsForSeries tmap cal.config.series).map some).filterMap id).map
      Prod.fst).Nodup := by
    rw [hinit_fm]
    exact List.Nodup.sublist ((List.filter_sublist tmap).map Prod.fst) hnd
  obtain ⟨hpropF, hndF⟩ := resolve_fold_invariant tmap cal.config.tournaments
    ((getTournamentsForSeries tmap cal.config.series).map some) hprop0 hnd0
  rw [← hres] at hpropF hndF
  have hmemF : ∀ p : Int × Tournament,
      p ∈ (resolveTournaments tmap cal.config).filterMap id →
        alookup tmap p.1 = some p.2 := by
    intro p hp
    rw [mem_filterMap_id] at hp
    exact hpropF p.1 p.2 (by simpa using hp)
  refine ⟨_, hok, ?_, ?_⟩
  · rw [flatMap_tournament_kind, List.map_map]
    have hmapeq : ((resolveTournaments tmap cal.config).filterMap id).map
        ((fun ev => IcsEvent.tid ev) ∘ (fun p : Int × Tournament =>
          (⟨"tournament-" ++ toString p.2.id ++ "@dg-cal", p.2.id, historyCount db p.2.id,
            p.2.title, none⟩ : IcsEvent))) =
        ((resolveTournaments tmap cal.config).filterMap id).map Prod.fst := by
      apply List.map_congr_left
      intro p hp
      have hlook := hmemF p hp
      have := hids (p.1, p.2) (alookup_mem hlook)
      simpa using this
    rw [hmapeq]
    exact hndF
  · intro x
    constructor
    · rintro ⟨ev, hev, hrel, htid⟩
      rw [List.mem_flatMap] at hev
      obtain ⟨p, hp, hev⟩ := hev
      have hevhead : ev = ⟨"tournament-" ++ toString p.2.id ++ "@dg-cal", p.2.id,
          historyCount db p.2.id, p.2.title, none⟩ := by
        rcases List.mem_cons.mp hev with h | h
        · exact h
        · exfalso
          rw [List.mem_map] at h
          obtain ⟨ri, hri, h⟩ := h
          rw [← h] at hrel
          exact Option.noConfusion hrel
      have hlook := hmemF p hp
      have hpid : p.2.id = p.1 := by
        have := hids (p.1, p.2) (alookup_mem hlook)
        simpa using this
      have hx : x = p.1 := by
        rw [← htid, hevhead, hpid]
      subst hx
      rw [mem_filterMap_id] at hp
      rw [hres, resolve_fold_mem] at hp
      rcases hp with hp | ⟨tid, htidmem, hp⟩
      · rw [List.mem_map] at hp
        obtain ⟨q, hq, heq⟩ := hp
        simp only [Option.some.injEq] at heq
        subst heq
        unfold getTournamentsForSeries at hq
        rw [List.mem_filter] at hq
        exact ⟨q.2, hlook, Or.inl hq.2⟩
      · cases halo : alookup tmap tid with
        | none =>
          rw [halo] at hp
          exact absurd hp (by simp)
        | some t1 =>
          rw [halo] at hp
          simp only [Option.map_some', Option.some.injEq] at hp
          subst hp
          exact ⟨t1, hlook, Or.inr htidmem⟩
    · rintro ⟨t, hlook, hdisj⟩
      have hmem_tmap : (x, t) ∈ tmap := alookup_mem hlook
      have htid : t.id = x := hids (x, t) hmem_tmap
      have hsome : some (x, t) ∈ resolveTournaments tmap cal.config := by
        rw [hres, resolve_fold_mem]
        rcases hdisj with hser | hexp
        · left
          rw [List.mem_map]
          refine ⟨(x, t), ?_, rfl⟩
          unfold getTournamentsForSeries
          rw [List.mem_filter]
          exact ⟨hmem_tmap, hser⟩
        · right
          refine ⟨x, hexp, ?_⟩
          rw [hlook]
          rfl
      refine ⟨⟨"tournament-" ++ toString t.id ++ "@dg-cal", t.id, historyCount db t.id,
          t.title, none⟩,
        List.mem_flatMap.mpr ⟨(x, t), (mem_filterMap_id _ _).mpr hsome,
          List.mem_cons_self _ _⟩, rfl, htid⟩

/-- Witness for C6: the concrete subscriber filter with explicit id 7 (series
"B") and subscribed series "A" (matched by tournament 9) resolves without
error, and no tournament is emitted twice. -/
theorem c6_witness :
    ∃ evs, createIcs sampleDb sampleTmap "cal1" = .ok evs ∧
      ((evs.filter (fun ev => ev.relatedTo = none)).map (fun ev => ev.tid)).Nodup :=
  have h := c6_subscriber_resolution sampleDb sampleTmap "cal1" sampleCal
    (by decide) (by decide) rfl
  ⟨h.choose, h.choose_spec.1, h.choose_spec.2.1⟩

/-! ### C9: registration-phase storage -/

/-- The storage key of a `registrations` row: `UNIQUE(id, title)`. -/
def regKey (r : RegRow) : Int × String := (r.id, r.title)

theorem upsertRegistration_preserves (tid : Int) (db : Db) (reg : Registration)
    (r : RegRow) (hr : r ∈ db.registrations) :
    ∃ r' ∈ (upsertRegistration tid db reg).registrations,
      r'.id = r.id ∧ r'.title = r.title := by
  unfold upsertRegistration
  by_cases hany : (db.registrations.any
      (fun row => row.id == tid && row.title == reg.title)) = true
  · rw [if_pos hany]
    by_cases hmatch : (r.id == tid && r.title == reg.title) = true
    · refine ⟨⟨tid, reg.title, reg.startDate, reg.endDate⟩, ?_, ?_, ?_⟩
      · rw [List.mem_map]
        exact ⟨r, hr, by rw [if_pos hmatch]⟩
      · simp only [Bool.and_eq_true, beq_iff_eq] at hmatch
        exact hmatch.1.symm
      · simp only [Bool.and_eq_true, beq_iff_eq] at hmatch
        exact hmatch.2.symm
    · refine ⟨r, ?_, rfl, rfl⟩
      rw [List.mem_map]
      exact ⟨r, hr, by rw [if_neg hmatch]⟩
  · rw [if_neg hany]
    exact ⟨r, List.mem_append_left _ hr, rfl, rfl⟩

theorem upsertRegistration_target (tid : Int) (db : Db) (reg : Registration) :
    ∃ r' ∈ (upsertRegistration tid db reg).registrations,
      r'.id = tid ∧ r'.title = reg.title := by
  unfold upsertRegistration
  by_cases hany : (db.registrations.any
      (fun row => row.id == tid && row.title == reg.title)) = true
  · rw [if_pos hany]
    rw [List.any_eq_true] at hany
    obtain ⟨row, hrow, hmatch⟩ := hany
    refine ⟨⟨tid, reg.title, reg.startDate, reg.endDate⟩, ?_, rfl, rfl⟩
    rw [List.mem_map]
    exact ⟨row, hrow, by rw [if_pos hmatch]⟩
  · rw [if_neg hany]
    exact ⟨⟨tid, reg.title, reg.startDate, reg.endDate⟩,
      List.mem_append_right _ (by simp), rfl, rfl⟩

theorem upsertRegistration_provenance (tid : Int) (db : Db) (reg : Registration)
    (r' : RegRow) (h : r' ∈ (upsertRegistration tid db reg).registrations) :
    r' ∈ db.registrations ∨ (r'.id = tid ∧ r'.title = reg.title) := by
  unfold upsertRegistration at h
  by_cases hany : (db.registrations.any
      (fun row => row.id == tid && row.title == reg.title)) = true
  · rw [if_pos hany] at h
    rw [List.mem_map] at h
    obtain ⟨row, hrow, heq⟩ := h
    by_cases hmatch : (row.id == tid && row.title == reg.title) = true
    · rw [if_pos hmatch] at heq
      right
      rw [← heq]
      exact ⟨rfl, rfl⟩
    · rw [if_neg hmatch] at heq
      left
      rw [← heq]
      exact hrow
  · rw [if_neg hany] at h
    rw [List.mem_append] at h
    rcases h with h | h
    · exact Or.inl h
    · right
      simp only [List.mem_singleton] at h
      rw [h]
      exact ⟨rfl, rfl⟩

theorem upsertRegistration_nodup (tid : Int) (db : Db) (reg : Registration)
    (h : (db.registrations.map regKey).Nodup) :
    (((upsertRegistration tid db reg).registrations).map regKey).Nodup := by
  unfold upsertRegistration
  by_cases hany : (db.registrations.any
      (fun row => row.id == tid && row.title == reg.title)) = true
  · rw [if_pos hany]
    have hkeys : (db.registrations.map (fun row =>
        if (row.id == tid && row.title == reg.title) = true then
          (⟨tid, reg.title, reg.startDate, reg.endDate⟩ : RegRow)
        else row)).map regKey = db.registrations.map regKey := by
      rw [List.map_map]
      apply List.map_congr_left
      intro row hrow
      by_cases hmatch : (row.id == tid && row.title == reg.title) = true
      · simp only [Function.comp_apply, if_pos hmatch]
        simp only [Bool.and_eq_true, beq_iff_eq] at hmatch
        unfold regKey
        rw [hmatch.1, hmatch.2]
      · simp only [Function.comp_apply, if_neg hmatch]
    rw [hkeys]
    exact h
  · rw [if_neg hany]
    simp only [List.map_append]
    rw [List.nodup_append]
    refine ⟨h, by simp, ?_⟩
    intro a ha hamem
    simp only [List.map_cons, List.map_nil, List.mem_singleton] at hamem
    rw [List.mem_map] at ha
    obtain ⟨row, hrow, hkey⟩ := ha
    rw [List.any_eq_true] at hany
    apply hany
    refine ⟨row, hrow, ?_⟩
    have h1 : row.id = tid := by
      have := congrArg Prod.fst (hkey.trans hamem)
      simpa [regKey] using this
    have h2 : row.title = reg.title := by
      have := congrArg Prod.snd (hkey.trans hamem)
      simpa [regKey] using this
    simp [h1, h2]

theorem foldReg_preserves (tid : Int) (regs : List Registration) (db : Db)
    (r : RegRow) (hr : r ∈ db.registrations) :
    ∃ r' ∈ (regs.foldl (upsertRegistration tid) db).registrations,
      r'.id = r.id ∧ r'.title = r.title := by
  induction regs generalizing db r with
  | nil => exact ⟨r, hr, rfl, rfl⟩
  | cons q rest ih =>
    obtain ⟨r1, hr1, hk1, hk2⟩ := upsertRegistration_preserves tid db q r hr
    obtain ⟨r2, hr2, hk3, hk4⟩ := ih (upsertRegistration tid db q) r1 hr1
    exact ⟨r2, hr2, by rw [hk3, hk1], by rw [hk4, hk2]⟩

theorem foldReg_target (tid : Int) (regs : List Registration) (db : Db)
    (reg : Registration) (h : reg ∈ regs) :
    ∃ r' ∈ (regs.foldl (upsertRegistration tid) db).registrations,
      r'.id = tid ∧ r'.title = reg.title := by
  induction regs generalizing db with
  | nil => exact absurd h (by simp)
  | cons q rest ih =>
    rcases List.mem_cons.mp h with h | h
    · subst h
      obtain ⟨r1, hr1, hk1, hk2⟩ := upsertRegistration_target tid db reg
      obtain ⟨r2, hr2, hk3, hk4⟩ := foldReg_preserves tid rest _ r1 hr1
      exact ⟨r2, hr2, by rw [hk3, hk1], by rw [hk4, hk2]⟩
    · exact ih _ h

theorem foldReg_provenance (tid : Int) (regs : List Registration) (db : Db)
    (r' : RegRow) (h : r' ∈ (regs.foldl (upsertRegistration tid) db).registrations) :
    r' ∈ db.registrations ∨ (r'.id = tid ∧ r'.title ∈ regs.map (fun q => q.title)) := by
  induction regs generalizing db with
  | nil => exact Or.inl h
  | cons q rest ih =>
    rcases ih _ h with hh | ⟨hid, htitle⟩
    · rcases upsertRegistration_provenance tid db q r' hh with hh | ⟨hid, htitle⟩
      · exact Or.inl hh
      · exact Or.inr ⟨hid, by simp [htitle]⟩
    · exact Or.inr ⟨hid, by simp [htitle]⟩

theorem foldReg_nodup (tid : Int) (regs : List Registration) (db : Db)
    (h : (db.registrations.map regKey).Nodup) :
    (((regs.foldl (upsertRegistration tid) db).registrations).map regKey).Nodup := by
  induction regs generalizing db with
  | nil => exact h
  | cons q rest ih => exact ih _ (upsertRegistration_nodup tid db q h)

theorem upsertTournamentRow_regs (db : Db) (t : Tournament) :
    (upsertTournamentRow db t).registrations = db.registrations := by
  unfold upsertTournamentRow
  split <;> rfl

theorem createTurnamentHistory_regs (now : Int) (db : Db) (t : Tournament) (db' : Db)
    (h : createTurnamentHistory now db t = .ok db') :
    db'.registrations = db.registrations := by
  unfold createTurnamentHistory at h
  by_cases hc : (db.history.any (fun hr => hr.tournamentId == t.id && hr.date == now)) = true
  · rw [if_pos hc] at h
    exact absurd h (by simp)
  · rw [if_neg hc] at h
    simp only [Except.ok.injEq] at h
    rw [← h]

/-- Detail result for the C9 scenario: one fresh phase named "new". -/
def c9details : EventDetails :=
  ⟨1, "T", goZeroTime, goZeroTime, "loc", "", [], "", "", false,
    [⟨"new", goZeroTime, goZeroTime⟩]⟩

/-- Detail fetcher for the C9 scenario. -/
def c9fetch : Int → Except String EventDetails := fun _ => .ok c9details

/-- Stored tournament 1 (instant 0) for the C9 scenario. -/
def c9stored : Tournament := { zeroTournament with id := 1, updatedAt := 0 }

/-- Service state for the C9 scenario: the repository already holds a phase row
(1, "old") whose name is absent from the fresh parse. -/
def c9state : ServiceState :=
  ⟨[(1, c9stored)], ⟨[], [⟨1, "old", goZeroTime, goZeroTime⟩], [], []⟩, none⟩

/-- **C9** (counterexample): the stored registration-phase collection after a
changed sync does *not* equal the freshly parsed phase list.  Syncing
tournament 1 whose fresh parse has only the phase "new" leaves the previously
stored phase "old" in place — nothing is ever deleted from the `registrations`
table — so the stored collection is ["old", "new"], not ["new"]. -/
theorem c9_stale_phase_persists :
    (syncOne c9fetch 100 c9state exFetched1).map
        (fun st => (st.db.registrations.filter (fun r => r.id == 1)).map
          (fun r => r.title)) = .ok ["old", "new"] ∧
    (syncOne c9fetch 100 c9state exFetched1).map
        (fun st => (st.db.registrations.filter (fun r => r.id == 1)).map
          (fun r => r.title)) ≠ .ok ["new"] := by
  refine ⟨rfl, ?_⟩
  intro h
  rw [show (syncOne c9fetch 100 c9state exFetched1).map
      (fun st => (st.db.registrations.filter (fun r => r.id == 1)).map
        (fun r => r.title)) = .ok ["old", "new"] from rfl] at h
  simp at h

/-- **C9** (amended): after a changed tournament is enriched and committed, the
*in-memory* registration list equals exactly the freshly parsed phases; at the
storage boundary each phase is upserted keyed by (tournament id, phase name) —
every fresh phase is stored, every previously stored row keeps its key, key
uniqueness is preserved (an existing name is an update, not a new row), and
every stored row either predates the sync or carries a name from the
tournament's fetched or freshly parsed phases; but previously stored phases
whose names are absent from the fresh parse are *not* removed. -/
theorem c9_phase_upsert_amended (details : Int → Except String EventDetails)
    (now : Int) (st : ServiceState) (f : Tournament) (d : EventDetails)
    (st' : ServiceState)
    (happlied : alookup st.tournaments f.id = none ∨
      ∃ s, alookup st.tournaments f.id = some s ∧ s.updatedAt < f.updatedAt)
    (hdet : details f.id = .ok d)
    (hok : syncOne details now st f = .ok st') :
    (∃ t', alookup st'.tournaments f.id = some t' ∧
        t'.registrations = f.registrations ++ phasesToRegs d) ∧
    (∀ p ∈ d.registrationPhases, ∃ r' ∈ st'.db.registrations,
        r'.id = f.id ∧ r'.title = p.name) ∧
    (∀ r ∈ st.db.registrations, ∃ r' ∈ st'.db.registrations,
        r'.id = r.id ∧ r'.title = r.title) ∧
    (∀ r' ∈ st'.db.registrations, r' ∈ st.db.registrations ∨
        (r'.id = f.id ∧ (r'.title ∈ f.registrations.map (fun q => q.title) ∨
          r'.title ∈ d.registrationPhases.map (fun p => p.name)))) ∧
    ((st.db.registrations.map regKey).Nodup → (st'.db.registrations.map regKey).Nodup) := by
  have hcond : (match alookup st.tournaments f.id with
      | none => true
      | some stored => decide (stored.updatedAt < f.updatedAt)) = true := by
    rcases happlied with h | ⟨s, hs, hlt⟩
    · rw [h]
    · rw [hs]
      simpa using hlt
  unfold syncOne at hok
  rw [if_pos hcond, hdet] at hok
  have hok2 : syncCommit now st f d = .ok st' := hok
  simp only [syncCommit] at hok2
  obtain ⟨db3, hdb3, hst'⟩ := exceptMap_ok _ _ _ hok2
  subst hst'
  have hregs3 : db3.registrations =
      (syncDb st.db (mergeDetails f d) d).registrations :=
    createTurnamentHistory_regs _ _ _ _ hdb3
  have hsync : syncDb st.db (mergeDetails f d) d =
      (phasesToRegs d).foldl (upsertRegistration (mergeDetails f d).id)
        ((mergeDetails f d).registrations.foldl
          (upsertRegistration (mergeDetails f d).id)
          (upsertTournamentRow st.db (mergeDetails f d))) := by
    unfold syncDb upsertTournament phasesToRegs
    rw [List.foldl_map]
  have hid : (mergeDetails f d).id = f.id := rfl
  have hregsf : (mergeDetails f d).registrations = f.registrations := rfl
  refine ⟨?_, ?_, ?_, ?_, ?_⟩
  · refine ⟨withPhases (mergeDetails f d) d, ?_, rfl⟩
    exact alookup_aupdate_self st.tournaments _ _
  · intro p hp
    rw [hsync] at hregs3
    have hmem : (⟨p.name, p.startDate, p.endDate⟩ : Registration) ∈ phasesToRegs d := by
      unfold phasesToRegs
      rw [List.mem_map]
      exact ⟨p, hp, rfl⟩
    obtain ⟨r', hr', hk1, hk2⟩ := foldReg_target (mergeDetails f d).id (phasesToRegs d) _
      ⟨p.name, p.startDate, p.endDate⟩ hmem
    refine ⟨r', ?_, by rw [hk1, hid], hk2⟩
    simp only
    rw [hregs3]
    exact hr'
  · intro r hr
    rw [hsync] at hregs3
    have hr0 : r ∈ (upsertTournamentRow st.db (mergeDetails f d)).registrations := by
      rw [upsertTournamentRow_regs]
      exact hr
    obtain ⟨r1, hr1, hk1, hk2⟩ := foldReg_preserves (mergeDetails f d).id
      (mergeDetails f d).registrations _ r hr0
    obtain ⟨r2, hr2, hk3, hk4⟩ := foldReg_preserves (mergeDetails f d).id
      (phasesToRegs d) _ r1 hr1
    refine ⟨r2, ?_, by rw [hk3, hk1], by rw [hk4, hk2]⟩
    simp only
    rw [hregs3]
    exact hr2
  · intro r' hr'
    simp only at hr'
    rw [hregs3, hsync] at hr'
    rcases foldReg_provenance _ _ _ r' hr' with hh | ⟨hidr, htitle⟩
    · rcases foldReg_provenance _ _ _ r' hh with hh2 | ⟨hidr, htitle⟩
      · rw [upsertTournamentRow_regs] at hh2
        exact Or.inl hh2
      · refine Or.inr ⟨by rw [hidr, hid], Or.inl ?_⟩
        rw [hregsf] at htitle
        exact htitle
    · refine Or.inr ⟨by rw [hidr, hid], Or.inr ?_⟩
      unfold phasesToRegs at htitle
      rw [List.map_map] at htitle
      simpa using htitle
  · intro hnd
    simp only
    rw [hregs3, hsync]
    apply foldReg_nodup
    apply foldReg_nodup
    rw [upsertTournamentRow_regs]
    exact hnd

/-- Witness for C9: in the concrete scenario the sync applies (stored instant 0,
fetched instant 5), and the fresh phase "new" is stored for tournament 1. -/
theorem c9_witness :
    ∃ st', syncOne c9fetch 100 c9state exFetched1 = .ok st' ∧
      ∃ r' ∈ st'.db.registrations, r'.id = 1 ∧ r'.title = "new" := by
  refine ⟨_, rfl, ?_⟩
  have h := c9_phase_upsert_amended c9fetch 100 c9state exFetched1 c9details _
    (Or.inr ⟨c9stored, rfl, by decide⟩) rfl rfl
  exact h.2.1 ⟨"new", goZeroTime, goZeroTime⟩ (by simp [c9details])

end DgCal
